import Mathlib

/-!
# Formal model of the `mail_service_conos_seals` reconciliation engine

This file shallowly embeds the core routines of the repository and proves
properties of them:

* `src/utils_1c.py` — the ERP (1C / "ЦУП") HTTP client: `cache_http_requests`
  (a bounded FIFO request cache) and `cup_http_request` (the redundant
  two-endpoint GET with catch-all error handling);
* `src/process_output_ocr.py` — the batch reconciliation engine: the
  errors/successes → partial_successes post-pass, the transaction-number
  lookup stage with the `SRV`-suffix retry, and the per-transaction container
  lookup stage;
* `src/utils.py` — `sanitize_pathname` and `transfer_files`;
* the Container Matcher described in the specification (its implementation is
  not part of the sources; it is modelled from the spec).

Mutable Python state (dicts, the filesystem) is modelled with explicit state
passing over association lists; Python exceptions are modelled with `Except`;
HTTP endpoints are modelled as oracles passed in as function arguments.
-/

namespace ConosSeals

/-! ## Association lists

Python `dict` / `defaultdict(list)` objects keyed by strings are modelled as
association lists in insertion order: a `dict` never holds two entries with
the same key, which appears below as a `Nodup` hypothesis on the key list.
-/

/-- A Python `dict[str, V]` in insertion order. -/
abbrev AList (V : Type) := List (String × V)

/-- The keys of an association list, in insertion order. -/
def alKeys {V : Type} (l : AList V) : List String := l.map Prod.fst

/-- First-match lookup, `d[k]` / `k in d`. -/
def alLookup {V : Type} : AList V → String → Option V
  | [], _ => none
  | (k, v) :: rest, key => if k = key then some v else alLookup rest key

/-- `d.pop(k, default)`: the value removed (or the default). -/
def alLookupD {V : Type} (l : AList V) (key : String) (dflt : V) : V :=
  (alLookup l key).getD dflt

/-- `d.pop(k, ...)`: the list with the first entry for `k` removed. -/
def alErase {V : Type} : AList V → String → AList V
  | [], _ => []
  | (k, v) :: rest, key => if k = key then rest else (k, v) :: alErase rest key

/-- `d[k] = v`: replace the value in place if the key exists (Python dicts
keep the key's position on re-assignment), otherwise append a new entry. -/
def alSet {V : Type} : AList V → String → V → AList V
  | [], key, v => [(key, v)]
  | (k, w) :: rest, key, v =>
      if k = key then (key, v) :: rest else (k, w) :: alSet rest key v

/-- `defaultdict(list)` message accumulation: `d[k].append(msg)`. -/
def alAppend : AList (List String) → String → String → AList (List String)
  | [], key, msg => [(key, [msg])]
  | (k, w) :: rest, key, msg =>
      if k = key then (k, w ++ [msg]) :: rest else (k, w) :: alAppend rest key msg

@[simp]
theorem alKeys_nil {V : Type} : alKeys ([] : AList V) = [] := rfl

@[simp]
theorem alKeys_cons {V : Type} (k : String) (v : V) (l : AList V) :
    alKeys ((k, v) :: l) = k :: alKeys l := rfl

theorem alLookup_eq_none {V : Type} (l : AList V) (key : String)
    (h : key ∉ alKeys l) : alLookup l key = none := by
  induction l with
  | nil => rfl
  | cons hd tl ih =>
    obtain ⟨k, v⟩ := hd
    simp only [alKeys_cons, List.mem_cons, not_or] at h
    rw [alLookup, if_neg (fun hk : k = key => h.1 hk.symm)]
    exact ih h.2

theorem alLookup_isSome {V : Type} (l : AList V) (key : String)
    (h : key ∈ alKeys l) : (alLookup l key).isSome := by
  induction l with
  | nil => simp [alKeys] at h
  | cons hd tl ih =>
    obtain ⟨k, v⟩ := hd
    by_cases hk : k = key
    · simp [alLookup, hk]
    · simp only [alKeys_cons, List.mem_cons] at h
      rcases h with h | h

      · exact absurd h.symm hk
      · simpa [alLookup, hk] using ih h

/-- Erasing some other key does not change a lookup. -/
theorem alLookup_alErase_ne {V : Type} (l : AList V) (k key : String)
    (hne : k ≠ key) : alLookup (alErase l k) key = alLookup l key := by
  induction l with
  | nil => rfl
  | cons hd tl ih =>
    obtain ⟨k', v⟩ := hd
    by_cases h1 : k' = k
    · subst h1
      simp [alErase, alLookup, hne]
    · by_cases h2 : k' = key
      · subst h2
        simp [alErase, alLookup, h1]
      · simp [alErase, alLookup, h1, h2, ih]

theorem alKeys_alErase_subset {V : Type} (l : AList V) (k : String) :
    alKeys (alErase l k) ⊆ alKeys l := by
  induction l with
  | nil => simp [alErase]
  | cons hd tl ih =>
    obtain ⟨k', v⟩ := hd
    by_cases h : k' = k
    · simp [alErase, h, List.subset_cons_of_subset, List.Subset.refl]
    · simp only [alErase, if_neg h, alKeys_cons]
      exact List.cons_subset_cons k' ih

theorem alErase_nodup {V : Type} (l : AList V) (k : String)
    (h : (alKeys l).Nodup) : (alKeys (alErase l k)).Nodup := by
  induction l with
  | nil => simp [alErase]
  | cons hd tl ih =>
    obtain ⟨k', v⟩ := hd
    simp only [alKeys_cons, List.nodup_cons] at h
    by_cases hk : k' = k
    · simp [alErase, hk, h.2]
    · simp only [alErase, if_neg hk, alKeys_cons, List.nodup_cons]
      exact ⟨fun hm => h.1 (alKeys_alErase_subset tl k hm), ih h.2⟩

/-- After erasing `k` from a dict (no duplicate keys), `k` is gone. -/
theorem not_mem_alKeys_alErase {V : Type} (l : AList V) (k : String)
    (h : (alKeys l).Nodup) : k ∉ alKeys (alErase l k) := by
  induction l with
  | nil => simp [alErase]
  | cons hd tl ih =>
    obtain ⟨k', v⟩ := hd
    simp only [alKeys_cons, List.nodup_cons] at h
    by_cases hk : k' = k
    · subst hk
      simpa [alErase] using h.1
    · simp only [alErase, if_neg hk, alKeys_cons, List.mem_cons, not_or]
      exact ⟨fun he => hk he.symm, ih h.2⟩

theorem alLookup_alSet_self {V : Type} (l : AList V) (key : String) (v : V) :
    alLookup (alSet l key v) key = some v := by
  induction l with
  | nil => simp [alSet, alLookup]
  | cons hd tl ih =>
    obtain ⟨k, w⟩ := hd
    by_cases h : k = key
    · simp [alSet, alLookup, h]
    · simp [alSet, alLookup, h, ih]

theorem alLookup_alSet_ne {V : Type} (l : AList V) (k key : String) (v : V)
    (hne : k ≠ key) : alLookup (alSet l k v) key = alLookup l key := by
  induction l with
  | nil => simp [alSet, alLookup, hne]
  | cons hd tl ih =>
    obtain ⟨k', w⟩ := hd
    by_cases h : k' = k
    · subst h
      simp [alSet, alLookup, hne, Ne.symm hne]
    · by_cases h2 : k' = key
      · simp [alSet, alLookup, h, h2, Ne.symm hne]
      · simp [alSet, alLookup, h, h2, ih]

/-! ## `cache_http_requests` (src/utils_1c.py, lines 16-51)

The decorator keeps a `dict` cache keyed by `f"{function}_{'_'.join(args)}"`.
On a hit it returns the cached value without calling the wrapped function; on
a miss it calls the wrapped function, stores the result (including `None`),
and then, if the cache holds more than `max_cache_size = 40` entries, evicts
`next(iter(cache))` — the oldest-inserted key, since keys are only ever
appended and popped from the front.

The cache is modelled as an `AList` in insertion order.  A "world" value of
type `α` stands for whatever the wrapped `cup_http_request` would return for
that call (`α` is instantiated with an `Option` type to cover `None`
results).  `cacheStep` also reports whether the wrapped function was actually
invoked, so that "the endpoint was (not) contacted" is expressible.
-/

/-- The cache key `f"{function}_{'_'.join(args)}"` built by the decorator. -/
def cacheKey (function : String) (args : List String) : String :=
  function ++ "_" ++ String.intercalate "_" args

/-- The cache capacity, `max_cache_size = 40` in the source. -/
def maxCacheSize : Nat := 40

/-- Inserting a fresh entry: append, then evict the oldest entry
(`cache.pop(next(iter(cache)))`) if the size now exceeds the cap. -/
def cacheInsert {α : Type} (cache : AList α) (key : String) (val : α) :
    AList α :=
  let c := cache ++ [(key, val)]
  if maxCacheSize < c.length then c.tail else c

/-- One call of the wrapped function: `(result, new cache, wrapped-function
invoked?)`. -/
def cacheStep {α : Type} (cache : AList α) (key : String) (world : α) :
    α × AList α × Bool :=
  match alLookup cache key with
  | some v => (v, cache, false)
  | none => (world, cacheInsert cache key world, true)

/-- A sequence of calls, each a `(key, world-result)` pair, starting (as in
the decorator) from an empty cache: returns the final cache, the number of
invocations of the wrapped function, and the result of the last call. -/
def runCalls {α : Type} (calls : List (String × α)) :
    AList α × Nat × Option α :=
  calls.foldl
    (fun st c =>
      let r := cacheStep st.1 c.1 c.2
      (r.2.1, st.2.1 + (if r.2.2 then 1 else 0), some r.1))
    ([], 0, none)

theorem cacheStep_length_le {α : Type} (cache : AList α) (key : String)
    (world : α) (h : cache.length ≤ maxCacheSize) :
    (cacheStep cache key world).2.1.length ≤ maxCacheSize := by
  unfold cacheStep
  cases halt : alLookup cache key with
  | some v => simpa using h
  | none =>
    simp only [cacheInsert]
    split
    · next hlen =>
      simp only [List.length_tail, List.length_append, List.length_cons,
        List.length_nil]
      omega
    · next hlen => omega

theorem runCalls_foldl_length {α : Type} (calls : List (String × α))
    (st : AList α × Nat × Option α) (h : st.1.length ≤ maxCacheSize) :
    (calls.foldl
      (fun st c =>
        let r := cacheStep st.1 c.1 c.2
        (r.2.1, st.2.1 + (if r.2.2 then 1 else 0), some r.1)) st).1.length
      ≤ maxCacheSize := by
  induction calls generalizing st with
  | nil => simpa using h
  | cons c rest ih =>
    simp only [List.foldl_cons]
    exact ih _ (cacheStep_length_le st.1 c.1 c.2 h)

/-- **C6.** After any sequence of lookups the cache never holds more than 40
entries, and when the cap is exceeded the evicted entry is the
oldest-inserted one: inserting a fresh key into a full (40-entry) cache drops
exactly the head of the insertion-ordered cache and appends the new entry at
the tail. -/
theorem c6_cache_bounded_fifo :
    (∀ (α : Type) (calls : List (String × α)),
        (runCalls calls).1.length ≤ 40)
    ∧ (∀ (α : Type) (cache : AList α) (key : String) (world : α),
        cache.length = 40 → alLookup cache key = none →
        (cacheStep cache key world).2.1 = cache.tail ++ [(key, world)]) := by
  constructor
  · intro α calls
    exact runCalls_foldl_length calls ([], 0, none) (by simp [maxCacheSize])
  · intro α cache key world hlen hmiss
    simp only [cacheStep, hmiss, cacheInsert]
    rw [if_pos (by simp [maxCacheSize, hlen])]
    cases cache with
    | nil => simp at hlen
    | cons e rest => simp

/-- A 40-entry cache used to witness the eviction clause of C6. -/
def fullCache40 : AList Nat :=
  (List.range 40).map (fun i => ("k" ++ Nat.repr i, i))

/-- Witness for C6: a concrete run of 3 calls stays within the bound, and a
concrete insertion into a concrete full cache evicts its oldest entry. -/
theorem c6_cache_bounded_fifo_witness :
    (runCalls [("a", 1), ("b", 2), ("a", 3)]).1.length ≤ 40
    ∧ (cacheStep fullCache40 "fresh" 99).2.1
        = fullCache40.tail ++ [("fresh", 99)] :=
  ⟨c6_cache_bounded_fifo.1 Nat [("a", 1), ("b", 2), ("a", 3)],
   c6_cache_bounded_fifo.2 Nat fullCache40 "fresh" 99 (by rfl) (by rfl)⟩

/-! ### C9 — negative caching

The decorator stores the wrapped function's result unconditionally
(`cache[url_cache_key] = result`), so a `None` result (both endpoints
failed) is cached like any other.  A later call with the same key returns
the cached `None` without contacting the endpoints — but only while the
entry is still in the cache: the FIFO cap (40 entries) can evict it, after
which the endpoints are contacted again.  The claim "every subsequent lookup
within the same run returns the cached null" is therefore refuted by a run
with 40 intervening fresh keys.
-/

/-- A run refuting C9 as stated: key `"k"` first fails (`none` cached), 40
fresh keys then evict it, and a final `"k"` lookup — after the ERP has
"recovered" — hits the wrapped function again. -/
def c9CallSeq : List (String × Option Nat) :=
  ("k", none) ::
    ((List.range 40).map (fun i => ("a" ++ Nat.repr i, some 0)))
    ++ [("k", some 5)]

/-- **C9 counterexample.** In the run `c9CallSeq` the final lookup of `"k"`
returns the fresh (recovered) value `some 5`, not the cached `none`, and the
wrapped function is invoked 42 times — in particular on the final call, so
the endpoints *are* contacted again, contrary to the claim. -/
theorem c9_counterexample_eviction :
    (runCalls c9CallSeq).2.2 = some (some 5)
    ∧ (runCalls c9CallSeq).2.1 = 42 := by
  constructor <;> rfl

/-- **C9 (amended).** A failed lookup (`None` from both endpoints) is cached,
and every subsequent lookup with the same key returns the cached `None`
without invoking the wrapped function — *as long as the entry has not been
evicted by the 40-entry FIFO cap*.  Formally: any cached value (in
particular `none`) is returned as-is, with the cache unchanged and the
wrapped function not invoked. -/
theorem c9_cached_none_returned {β : Type} (cache : AList (Option β))
    (key : String) (world : Option β)
    (h : alLookup cache key = some none) :
    cacheStep cache key world = (none, cache, false) := by
  simp [cacheStep, h]

/-- Witness for the amended C9: a concrete cache holding a failed lookup for
`"k"` returns the cached `none` and does not invoke the wrapped function. -/
theorem c9_cached_none_returned_witness :
    cacheStep [("k", (none : Option Nat))] "k" (some 7)
      = (none, [("k", (none : Option Nat))], false) :=
  c9_cached_none_returned [("k", none)] "k" (some 7) (by rfl)

/-! ## `cup_http_request` (src/utils_1c.py, lines 54-121)

The function builds two URLs (primary then secondary, order controlled by
`kappa`) and loops over them.  For each URL, inside one `try`:

* `requests.get` may raise (network error);
* on `status_code == 200`, `response.json()` is parsed — this may itself
  raise on a malformed body — and the parsed value is returned;
* on any other status a warning is logged and the loop falls through.

Every exception inside the `try` is caught by `except Exception` and the
loop continues with the next URL; when the loop is exhausted the function
implicitly returns `None`.

One URL attempt is modelled by `HttpResponse α` (`α` abstracts the parsed
JSON value): `raisedOnGet` for a `requests.get` exception and
`response status body` for a reply, where `body = none` means the body does
not parse (`.json()` raises).  The exception-per-attempt behaviour is made
explicit by `urlAttemptBody`, whose `Except` errors are exactly the places
where the Python `try` body raises; `cup_http_request` catches all of them.
-/

/-- What one URL attempt produces. -/
inductive HttpResponse (α : Type) where
  | raisedOnGet
  | response (status : Nat) (body : Option α)
  deriving DecidableEq, Repr

/-- Python exceptions that the `try` body of `cup_http_request` can raise. -/
inductive PyExn where
  | requestExn
  | jsonDecodeExn
  deriving DecidableEq, Repr

/-- The body of the `try` for one URL: `error` = an exception is raised,
`ok (some j)` = `return result`, `ok none` = fall through (non-200). -/
def urlAttemptBody {α : Type} : HttpResponse α → Except PyExn (Option α)
  | .raisedOnGet => .error .requestExn
  | .response status body =>
      if status = 200 then
        match body with
        | some j => .ok (some j)
        | none => .error .jsonDecodeExn
      else .ok none

/-- The URL loop of `cup_http_request`: every `Except.error` of the `try`
body is caught (`except Exception`) and the loop continues; an exhausted
loop returns `None`.  The result type `Option α` (rather than
`Except PyExn (Option α)`) records that no exception escapes to the
caller. -/
def cup_http_request {α : Type} : List (HttpResponse α) → Option α
  | [] => none
  | r :: rest =>
      match urlAttemptBody r with
      | .error _ => cup_http_request rest
      | .ok (some j) => some j
      | .ok none => cup_http_request rest

/-- The parsed JSON an attempt successfully delivers, if any. -/
def attemptJson {α : Type} : HttpResponse α → Option α
  | .response 200 (some j) => some j
  | _ => none

/-- **C5.** `cup_http_request` never raises to its caller — every exception
of the `try` body (`urlAttemptBody`'s errors: network errors and malformed
200 bodies alike) is caught, as reflected by the total `Option α` result —
and for any behaviour of the two endpoint attempts it returns the parsed
JSON of the first attempt that answers HTTP 200 (with a body that parses),
and `none` when both attempts fail to deliver one. -/
theorem c5_cup_http_request_total (α : Type) (a b : HttpResponse α) :
    cup_http_request [a, b]
      = match attemptJson a with
        | some j => some j
        | none => attemptJson b := by
  cases a with
  | raisedOnGet =>
    cases b with
    | raisedOnGet => rfl
    | response status body =>
      rcases body with _ | j <;>
        · by_cases h : status = 200 <;>
            simp [cup_http_request, urlAttemptBody, attemptJson, h]
  | response status body =>
    by_cases h : status = 200
    · subst h
      rcases body with _ | j
      · cases b with
        | raisedOnGet => rfl
        | response status2 body2 =>
          rcases body2 with _ | j2 <;>
            · by_cases h2 : status2 = 200 <;>
                simp [cup_http_request, urlAttemptBody, attemptJson, h2]
      · simp [cup_http_request, urlAttemptBody, attemptJson]
    · cases b with
      | raisedOnGet =>
        simp [cup_http_request, urlAttemptBody, attemptJson, h]
      | response status2 body2 =>
        rcases body2 with _ | j2 <;>
          · by_cases h2 : status2 = 200 <;>
              simp [cup_http_request, urlAttemptBody, attemptJson, h, h2]

/-! ## The batch post-pass (src/process_output_ocr.py, lines 583-595)

After all the files of one staged folder have been processed, the engine
runs:

```python
partial_successes_files = [
    filename for filename in metadata["errors"]
    if filename in metadata["successes"]
]
for partial_filename in partial_successes_files:
    metadata["partial_successes"][partial_filename] = (
            metadata["errors"].pop(partial_filename, []) +
            metadata["successes"].pop(partial_filename, [])
    )
```

`errors`, `successes` and `partial_successes` are `defaultdict(list)`
mappings filename → list of messages; they are modelled as `AList
(List String)` values in insertion order.
-/

/-- The three per-filename message maps of `metadata.json`. -/
structure BatchMaps where
  errors : AList (List String)
  successes : AList (List String)
  partial_successes : AList (List String)
  deriving Repr, DecidableEq

/-- One iteration of the reclassification loop for `filename`. -/
def reclassifyOne (m : BatchMaps) (filename : String) : BatchMaps :=
  { errors := alErase m.errors filename,
    successes := alErase m.successes filename,
    partial_successes :=
      alSet m.partial_successes filename
        (alLookupD m.errors filename [] ++ alLookupD m.successes filename []) }

/-- The batch post-pass: collect the filenames present in both `errors` and
`successes` (in `errors` insertion order) and reclassify each of them. -/
def batchPostPass (m : BatchMaps) : BatchMaps :=
  let partialFiles :=
    (alKeys m.errors).filter (fun f => f ∈ alKeys m.successes)
  partialFiles.foldl reclassifyOne m

/-- Facts about `f` preserved by reclassifying other filenames. -/
theorem reclassifyOne_preserves (m : BatchMaps) (g f : String) (v : List String)
    (hne : g ≠ f)
    (h1 : f ∉ alKeys m.errors) (h2 : f ∉ alKeys m.successes)
    (h3 : alLookup m.partial_successes f = some v) :
    f ∉ alKeys (reclassifyOne m g).errors
    ∧ f ∉ alKeys (reclassifyOne m g).successes
    ∧ alLookup (reclassifyOne m g).partial_successes f = some v := by
  refine ⟨fun hm => h1 (alKeys_alErase_subset m.errors g hm),
          fun hm => h2 (alKeys_alErase_subset m.successes g hm), ?_⟩
  simpa [reclassifyOne, alLookup_alSet_ne _ g f _ hne] using h3

theorem foldl_reclassify_preserves (L : List String) (m : BatchMaps)
    (f : String) (v : List String) (hL : f ∉ L)
    (h1 : f ∉ alKeys m.errors) (h2 : f ∉ alKeys m.successes)
    (h3 : alLookup m.partial_successes f = some v) :
    f ∉ alKeys (L.foldl reclassifyOne m).errors
    ∧ f ∉ alKeys (L.foldl reclassifyOne m).successes
    ∧ alLookup (L.foldl reclassifyOne m).partial_successes f = some v := by
  induction L generalizing m with
  | nil => exact ⟨h1, h2, h3⟩
  | cons g rest ih =>
    simp only [List.mem_cons, not_or] at hL
    obtain ⟨p1, p2, p3⟩ :=
      reclassifyOne_preserves m g f v (fun h => hL.1 h.symm) h1 h2 h3
    exact ih _ hL.2 p1 p2 p3

theorem foldl_reclassify_spec (L : List String) (m : BatchMaps) (f : String)
    (hf : f ∈ L) (hL : L.Nodup)
    (hne : (alKeys m.errors).Nodup) (hns : (alKeys m.successes).Nodup)
    (vE vS : List String)
    (hE : alLookup m.errors f = some vE)
    (hS : alLookup m.successes f = some vS) :
    f ∉ alKeys (L.foldl reclassifyOne m).errors
    ∧ f ∉ alKeys (L.foldl reclassifyOne m).successes
    ∧ alLookup (L.foldl reclassifyOne m).partial_successes f
        = some (vE ++ vS) := by
  induction L generalizing m with
  | nil => simp at hf
  | cons g rest ih =>
    simp only [List.nodup_cons] at hL
    rcases List.mem_cons.mp hf with hgf | hrest
    · subst hgf
      have h1 : f ∉ alKeys (reclassifyOne m f).errors :=
        not_mem_alKeys_alErase m.errors f hne
      have h2 : f ∉ alKeys (reclassifyOne m f).successes :=
        not_mem_alKeys_alErase m.successes f hns
      have h3 : alLookup (reclassifyOne m f).partial_successes f
          = some (vE ++ vS) := by
        simp [reclassifyOne, alLookup_alSet_self, alLookupD, hE, hS]
      exact foldl_reclassify_preserves rest _ f (vE ++ vS) hL.1 h1 h2 h3
    · have hgf : g ≠ f := fun h => hL.1 (h ▸ hrest)
      have hE' : alLookup (reclassifyOne m g).errors f = some vE := by
        simpa [reclassifyOne, alLookup_alErase_ne _ g f hgf] using hE
      have hS' : alLookup (reclassifyOne m g).successes f = some vS := by
        simpa [reclassifyOne, alLookup_alErase_ne _ g f hgf] using hS
      exact ih _ hrest hL.2
        (alErase_nodup m.errors g hne) (alErase_nodup m.successes g hns)
        hE' hS'

theorem alLookup_mem_of_isSome {V : Type} (l : AList V) (key : String)
    (h : key ∈ alKeys l) : ∃ v, alLookup l key = some v := by
  cases hv : alLookup l key with
  | none => exact absurd (alLookup_isSome l key h) (by simp [hv])
  | some v => exact ⟨v, rfl⟩

/-- **C1.** After the batch post-pass, every filename that was a key of both
the `errors` map and the `successes` map appears in `partial_successes` with
the merged error-then-success message lists as its value, and is a key of
neither `errors` nor `successes` any more.  (`Nodup` on the key lists is the
Python `dict` invariant.) -/
theorem c1_partial_success_postpass (m : BatchMaps) (f : String)
    (hne : (alKeys m.errors).Nodup) (hns : (alKeys m.successes).Nodup)
    (hfe : f ∈ alKeys m.errors) (hfs : f ∈ alKeys m.successes) :
    alLookup (batchPostPass m).partial_successes f
      = some (alLookupD m.errors f [] ++ alLookupD m.successes f [])
    ∧ f ∉ alKeys (batchPostPass m).errors
    ∧ f ∉ alKeys (batchPostPass m).successes := by
  obtain ⟨vE, hE⟩ := alLookup_mem_of_isSome m.errors f hfe
  obtain ⟨vS, hS⟩ := alLookup_mem_of_isSome m.successes f hfs
  have hf : f ∈ (alKeys m.errors).filter (fun f => f ∈ alKeys m.successes) := by
    simp [List.mem_filter, hfe, hfs]
  have hL : ((alKeys m.errors).filter
      (fun f => f ∈ alKeys m.successes)).Nodup := hne.filter _
  obtain ⟨h1, h2, h3⟩ :=
    foldl_reclassify_spec _ m f hf hL hne hns vE vS hE hS
  have key : batchPostPass m
      = ((alKeys m.errors).filter
          (fun f => f ∈ alKeys m.successes)).foldl reclassifyOne m := rfl
  rw [key]
  refine ⟨?_, h1, h2⟩
  rw [h3]
  simp [alLookupD, hE, hS]

/-- A concrete metadata instance for the C1 witness: `f.pdf` holds both an
error and a success message. -/
def c1ExampleMaps : BatchMaps :=
  { errors := [("f.pdf", ["e1"]), ("g.pdf", ["e2"])],
    successes := [("f.pdf", ["s1"])],
    partial_successes := [] }

/-- Witness for C1 on `c1ExampleMaps`. -/
theorem c1_partial_success_postpass_witness :
    alLookup (batchPostPass c1ExampleMaps).partial_successes "f.pdf"
      = some ["e1", "s1"]
    ∧ "f.pdf" ∉ alKeys (batchPostPass c1ExampleMaps).errors
    ∧ "f.pdf" ∉ alKeys (batchPostPass c1ExampleMaps).successes := by
  have h := c1_partial_success_postpass c1ExampleMaps "f.pdf"
    (by decide) (by decide) (by decide) (by decide)
  exact h

/-! ## Per-file reconciliation stages (src/process_output_ocr.py)

The per-file loop interacts with `cup_http_request` (behind the cache) and
mutates `metadata["errors"]` / moves the `(source file, OCR JSON)` pair.
Below, the two ERP-lookup stages are embedded as functions of

* a lookup oracle (what `cup_http_request` returns for a given argument),
* the already-rendered `format_json_data_to_mail` text (`fmt`), which the
  error messages append verbatim,
* the source file name and the `errors` map.

File movements are recorded as explicit `FileAction` values.
-/

/-- Whitespace for Python `str.strip()` / `str.split()` (ASCII class). -/
def isSpaceChar (c : Char) : Bool :=
  c == ' ' || c == '\t' || c == '\n' || c == '\r' || c == '\x0b' || c == '\x0c'

/-- Drop trailing characters satisfying `p`. -/
def dropTrailing (p : Char → Bool) (l : List Char) : List Char :=
  (l.reverse.dropWhile p).reverse

/-- Drop leading and trailing characters satisfying `p`
(Python `str.strip`). -/
def stripEnds (p : Char → Bool) (l : List Char) : List Char :=
  dropTrailing p (l.dropWhile p)

/-- Python `str.strip()`. -/
def stripStr (s : String) : String := String.mk (stripEnds isSpaceChar s.data)

/-- `transaction_number.split()[0]` — the first whitespace-separated token
(for a non-blank string). -/
def firstToken (s : String) : String :=
  String.mk ((s.data.dropWhile isSpaceChar).takeWhile (fun c => !isSpaceChar c))

/-- A parsed `cup_http_request` result as the engine sees it: `null`
(`None`), a JSON list of strings, or some other JSON value with the given
Python truthiness. -/
inductive CupResult where
  | null
  | jlist (xs : List String)
  | other (truthy : Bool)
  deriving DecidableEq, Repr

/-- Python truthiness of a `CupResult`. -/
def CupResult.isTruthy : CupResult → Bool
  | .null => false
  | .jlist xs => !xs.isEmpty
  | .other t => t

/-- Destination of a file transfer in the engine. -/
inductive FolderDest where
  | errorDir
  | successDir
  deriving DecidableEq, Repr

/-- A recorded `transfer_files(files_to_transfer, ..., op)` call. -/
inductive FileAction where
  | move (files : List String) (dest : FolderDest)
  | copy (files : List String) (dest : FolderDest)
  deriving DecidableEq, Repr

/-- The known bill-of-lading suffix marker `"SRV"`. -/
def srvMarker : List Char := ['S', 'R', 'V']

/-- `json_data["bill_of_lading"].endswith("SRV")`. -/
def endsWithSRV (s : String) : Bool := srvMarker.isSuffixOf s.data

/-- `str.removesuffix("SRV")` under the `endswith` guard. -/
def stripSRV (s : String) : String :=
  String.mk (s.data.take (s.data.length - 3))

/-- The error message of the transaction-lookup stage (line 474), with the
rendered recognised-data block appended. -/
def transactionErrMsg (bol fmt : String) : String :=
  "Номер транзакции из ЦУП отсутствует. Возможно, номер коносамента ("
    ++ bol ++ ") распознан неверно." ++ fmt

/-- Lines 458-485: request the transaction numbers for the bill of lading;
if that result is falsy and the bill of lading ends in `"SRV"`, retry once
with the suffix stripped (also updating `json_data["bill_of_lading"]`); if
the final result is not a non-empty list, append an error message for the
file and move the `(source, json)` pair to the error directory.

Returns `(lookup requests made, errors map, file actions, outcome)`, where
the outcome carries the transaction numbers and the possibly-stripped bill
of lading on success. -/
def transactionLookupStage (lookup : String → CupResult)
    (fmt filename bol : String) (errors : AList (List String)) :
    List String × AList (List String) × List FileAction
      × Option (List String × String) :=
  let t1 := lookup bol
  let needRetry := !t1.isTruthy && endsWithSRV bol
  let requests := if needRetry then [bol, stripSRV bol] else [bol]
  let bol2 := if needRetry then stripSRV bol else bol
  let t2 := if needRetry then lookup (stripSRV bol) else t1
  match t2 with
  | .jlist (x :: xs) => (requests, errors, [], some (x :: xs, bol2))
  | _ =>
      (requests,
       alAppend errors filename (transactionErrMsg bol2 fmt),
       [FileAction.move [filename, filename ++ ".json"] FolderDest.errorDir],
       none)

/-- **C3.** If the first transaction lookup returns no result (falsy) and
the bill of lading ends with `"SRV"`, exactly one further lookup is
attempted with the suffix stripped; if that second lookup also returns no
result, the file pair is moved to the error directory and an error message
referencing the missing transaction number is appended to the metadata
errors entry for that filename. -/
theorem c3_srv_suffix_retry (lookup : String → CupResult)
    (fmt filename bol : String) (errors : AList (List String))
    (h1 : (lookup bol).isTruthy = false)
    (h2 : endsWithSRV bol = true)
    (h3 : (lookup (stripSRV bol)).isTruthy = false) :
    transactionLookupStage lookup fmt filename bol errors
      = ([bol, stripSRV bol],
         alAppend errors filename (transactionErrMsg (stripSRV bol) fmt),
         [FileAction.move [filename, filename ++ ".json"] FolderDest.errorDir],
         none) := by
  cases hres : lookup (stripSRV bol) with
  | null => simp [transactionLookupStage, h1, h2, hres]
  | jlist xs =>
    cases xs with
    | nil => simp [transactionLookupStage, h1, h2, hres]
    | cons x rest =>
      rw [hres] at h3
      simp [CupResult.isTruthy] at h3
  | other t =>
    have ht : t = false := by
      rw [hres] at h3
      simpa [CupResult.isTruthy] using h3
    subst ht
    simp [transactionLookupStage, h1, h2, hres]

/-- Witness for C3: a bill of lading `"TESTSRV"` with an ERP that returns
`None` for every lookup. -/
theorem c3_srv_suffix_retry_witness :
    transactionLookupStage (fun _ => CupResult.null) "" "doc.pdf" "TESTSRV" []
      = (["TESTSRV", stripSRV "TESTSRV"],
         alAppend [] "doc.pdf" (transactionErrMsg (stripSRV "TESTSRV") ""),
         [FileAction.move ["doc.pdf", "doc.pdf" ++ ".json"]
            FolderDest.errorDir],
         none) :=
  c3_srv_suffix_retry (fun _ => CupResult.null) "" "doc.pdf" "TESTSRV" []
    (by rfl) (by rfl) (by rfl)

/-! ### Container lookup stage (src/process_output_ocr.py, lines 492-516)

```python
container_numbers_cup: list[list[str]] = [
    [number.strip() for number in cup_http_request(
        "GetTransportPositionNumberByTransactionNumber",
        transaction_number.split()[0],
        encode=False
    )]
    for transaction_number in transaction_numbers
]
if not any(container_numbers_cup):
    ... append error, move pair to error folder, continue
```

`cup_http_request` returns the parsed JSON list **or `None`** (both
endpoints failed).  In the `None` case the inner comprehension iterates
`None` and raises `TypeError`, which is not handled anywhere in the per-file
loop: it escapes to the per-folder `except Exception` handler (line 650),
so no per-file error message is recorded and the file pair is not moved.
The oracle returns `Option (List String)`: `none` models the `None`
result. -/

/-- The error message of the container-lookup stage (line 506); the Python
`repr` of the transaction-number list is rendered as a comma-joined list. -/
def containerLookupErrMsg (tns : List String) (fmt : String) : String :=
  "Номера контейнеров по номеру сделки (" ++ String.intercalate ", " tns
    ++ ") из ЦУП отсутствуют." ++ fmt

/-- The nested list comprehension: one list of stripped container numbers
per transaction number; iterating a `None` result raises `TypeError`. -/
def fetchContainerLists (clookup : String → Option (List String)) :
    List String → Except String (List (List String))
  | [] => .ok []
  | tn :: rest =>
      match clookup (firstToken tn) with
      | none => .error "TypeError: NoneType is not iterable"
      | some xs =>
          match fetchContainerLists clookup rest with
          | .error e => .error e
          | .ok r => .ok (xs.map stripStr :: r)

/-- Lines 492-516: build `container_numbers_cup`; when
`not any(container_numbers_cup)` (every per-transaction list is empty),
record the error and move the pair to the error directory; otherwise hand
the per-transaction lists to the comparison step.  An uncaught `TypeError`
surfaces as `Except.error`. -/
def containerLookupStage (clookup : String → Option (List String))
    (tns : List String) (fmt filename : String)
    (errors : AList (List String)) :
    Except String
      (AList (List String) × List FileAction × Option (List (List String))) :=
  match fetchContainerLists clookup tns with
  | .error e => .error e
  | .ok lists =>
      if lists.all (fun l => l.isEmpty) then
        .ok (alAppend errors filename (containerLookupErrMsg tns fmt),
             [FileAction.move [filename, filename ++ ".json"]
                FolderDest.errorDir],
             none)
      else .ok (errors, [], some lists)

/-- **C4 (failing input).** When the transaction lookup succeeded (one
transaction number) but the container lookup returns `None` because both
endpoints failed, the engine does *not* record a per-file error or move the
file pair: the list comprehension raises `TypeError`, which escapes the
per-file loop (it is only caught by the per-folder handler).  This
contradicts the claim, which requires an error entry and a move to the
error directory with no exception escaping to the folder level. -/
theorem c4_null_container_lookup_raises :
    containerLookupStage (fun _ => none) ["АА-0095444 от 14.04.2025"]
        "" "doc.pdf" []
      = .error "TypeError: NoneType is not iterable" := rfl

/-! ## `transfer_files` (src/utils.py, lines 236-287)

```python
def transfer_files(file_paths, destination_folder, operation="copy2",
                   block_transfer=config.block_processed_files_to_output):
    if block_transfer:
        return None
    ...
    destination_folder.mkdir(parents=True, exist_ok=True)
    file_operation = getattr(shutil, operation)
    for file_path in file_paths:
        try:
            src_path = Path(file_path)
            if not src_path.is_file():
                continue
            new_path = destination_folder / src_path.name
            file_operation(src_path, new_path)
        except PermissionError as e: ...log...
        except shutil.Error as e: ...log...
        except Exception as e: ...log...
```

The filesystem is modelled as a finite map path → content plus a list of
existing directories; a path is a `(directory, basename)` pair so that
`destination_folder / src_path.name` is expressible.  Per-file
permission/OS failures are injected through an `oracle`; every such failure
is caught by the `except` clauses, which the model reflects by skipping the
file.  `block_transfer` defaults to the configuration flag
`block_processed_files_to_output`; no caller in the repository overrides
it. -/

/-- A filesystem path, split as `(parent directory, basename)`. -/
structure PyPath where
  dir : String
  base : String
  deriving DecidableEq, Repr

/-- A model filesystem: regular files with contents, and directories. -/
structure FileSystem where
  files : List (PyPath × String)
  dirs : List String
  deriving DecidableEq, Repr

/-- First-match file lookup (`Path.is_file` / read). -/
def fsLookup : List (PyPath × String) → PyPath → Option String
  | [], _ => none
  | (q, c) :: rest, p => if q = p then some c else fsLookup rest p

/-- Remove a file. -/
def fsErase : List (PyPath × String) → PyPath → List (PyPath × String)
  | [], _ => []
  | (q, c) :: rest, p => if q = p then rest else (q, c) :: fsErase rest p

/-- Create/overwrite a file. -/
def fsSet (files : List (PyPath × String)) (p : PyPath) (content : String) :
    List (PyPath × String) :=
  fsErase files p ++ [(p, content)]

/-- `mkdir(parents=True, exist_ok=True)` for the destination folder. -/
def mkdirInsert (dirs : List String) (d : String) : List String :=
  if d ∈ dirs then dirs else dirs ++ [d]

/-- The `shutil` operation name passed to `transfer_files`. -/
inductive TransferKind where
  | copy2
  | copy
  | move
  deriving DecidableEq, Repr

/-- One iteration of the transfer loop for `p`: skip non-files, let the
`except` clauses swallow an injected per-file failure, otherwise copy or
move the file into the destination folder. -/
def transferStep (destination_folder : String) (operation : TransferKind)
    (oracle : PyPath → Option String) (acc : FileSystem) (p : PyPath) :
    FileSystem :=
  if (fsLookup acc.files p).isNone then acc
  else
    match oracle p with
    | some _ => acc
    | none =>
        match fsLookup acc.files p with
        | none => acc
        | some content =>
            let dst : PyPath := ⟨destination_folder, p.base⟩
            match operation with
            | .move =>
                { acc with files := fsSet (fsErase acc.files p) dst content }
            | _ => { acc with files := fsSet acc.files dst content }

/-- `transfer_files` over the model filesystem. -/
def transfer_files (block_transfer : Bool) (file_paths : List PyPath)
    (destination_folder : String) (operation : TransferKind)
    (oracle : PyPath → Option String) (fs : FileSystem) : FileSystem :=
  if block_transfer then fs
  else
    file_paths.foldl (transferStep destination_folder operation oracle)
      { fs with dirs := mkdirInsert fs.dirs destination_folder }

/-- **C10.** When the configuration flag `block_processed_files_to_output`
is set (the `block_transfer` default; no call site overrides it), every
call of `transfer_files` returns immediately and performs no filesystem
change whatsoever: no destination directory is created and no file is
copied or moved, regardless of paths, destination, or operation. -/
theorem c10_block_transfer_noop (file_paths : List PyPath)
    (destination_folder : String) (operation : TransferKind)
    (oracle : PyPath → Option String) (fs : FileSystem) :
    transfer_files true file_paths destination_folder operation oracle fs
      = fs := rfl

/-- **C8 counterexample.** With transfers not blocked, an absent destination
directory and a single non-existent source path, the call is *not* a no-op:
`destination_folder.mkdir(parents=True, exist_ok=True)` runs before the
loop, so the destination directory comes into existence. -/
theorem c8_counterexample_mkdir :
    transfer_files false [⟨"in", "a.txt"⟩] "dest" TransferKind.move
        (fun _ => none) ⟨[], []⟩
      ≠ (⟨[], []⟩ : FileSystem)
    ∧ (transfer_files false [⟨"in", "a.txt"⟩] "dest" TransferKind.move
        (fun _ => none) ⟨[], []⟩).dirs = ["dest"] := by
  constructor
  · intro h
    have : (transfer_files false [⟨"in", "a.txt"⟩] "dest" TransferKind.move
        (fun _ => none) ⟨[], []⟩).dirs = [] := by rw [h]
    simp [transfer_files, transferStep, fsLookup, mkdirInsert] at this
  · rfl

theorem foldl_transferStep_skip_missing (file_paths : List PyPath)
    (destination_folder : String) (operation : TransferKind)
    (oracle : PyPath → Option String) (acc : FileSystem)
    (h : ∀ p ∈ file_paths, fsLookup acc.files p = none) :
    file_paths.foldl (transferStep destination_folder operation oracle) acc
      = acc := by
  induction file_paths with
  | nil => rfl
  | cons p rest ih =>
    have hstep : transferStep destination_folder operation oracle acc p
        = acc := by
      simp [transferStep, h p (List.mem_cons_self p rest)]
    simp only [List.foldl_cons, hstep]
    exact ih (fun q hq => h q (List.mem_cons_of_mem p hq))

theorem foldl_transferStep_all_raise (file_paths : List PyPath)
    (destination_folder : String) (operation : TransferKind)
    (oracle : PyPath → Option String) (acc : FileSystem)
    (h : ∀ p, (oracle p).isSome) :
    file_paths.foldl (transferStep destination_folder operation oracle) acc
      = acc := by
  induction file_paths with
  | nil => rfl
  | cons p rest ih =>
    have hstep : transferStep destination_folder operation oracle acc p
        = acc := by
      unfold transferStep
      cases hl : fsLookup acc.files p with
      | none => simp
      | some c =>
        cases ho : oracle p with
        | none => exact absurd (h p) (by simp [ho])
        | some e => simp [hl, ho]
    simp only [List.foldl_cons, hstep]
    exact ih

/-- **C8 (amended).** A `transfer_files` call whose source paths all refer
to non-existent files raises no exception, copies or moves no file and
leaves every file of the filesystem unchanged — but it does create the
destination directory when absent (the `mkdir` runs before the per-file
loop).  Likewise, per-file permission/OS errors never propagate: even when
every per-file operation fails, the call returns normally having changed
nothing but the destination directory. -/
theorem c8_transfer_missing_sources_amended :
    (∀ (file_paths : List PyPath) (destination_folder : String)
        (operation : TransferKind) (oracle : PyPath → Option String)
        (fs : FileSystem),
        (∀ p ∈ file_paths, fsLookup fs.files p = none) →
        transfer_files false file_paths destination_folder operation oracle fs
          = { fs with dirs := mkdirInsert fs.dirs destination_folder })
    ∧ (∀ (file_paths : List PyPath) (destination_folder : String)
        (operation : TransferKind) (oracle : PyPath → Option String)
        (fs : FileSystem),
        (∀ p, (oracle p).isSome) →
        transfer_files false file_paths destination_folder operation oracle fs
          = { fs with dirs := mkdirInsert fs.dirs destination_folder }) := by
  constructor
  · intro file_paths destination_folder operation oracle fs h
    exact foldl_transferStep_skip_missing file_paths destination_folder
      operation oracle _ h
  · intro file_paths destination_folder operation oracle fs h
    exact foldl_transferStep_all_raise file_paths destination_folder
      operation oracle _ h

/-- Witness for the amended C8: one absent source path over a one-file
filesystem, and a failing per-file oracle over the same filesystem. -/
theorem c8_transfer_missing_sources_amended_witness :
    transfer_files false [⟨"in", "a.txt"⟩] "dest" TransferKind.move
        (fun _ => none) ⟨[(⟨"other", "b.txt"⟩, "data")], []⟩
      = ⟨[(⟨"other", "b.txt"⟩, "data")], ["dest"]⟩
    ∧ transfer_files false [⟨"other", "b.txt"⟩] "dest" TransferKind.move
        (fun _ => some "PermissionError") ⟨[(⟨"other", "b.txt"⟩, "data")], []⟩
      = ⟨[(⟨"other", "b.txt"⟩, "data")], ["dest"]⟩ :=
  ⟨c8_transfer_missing_sources_amended.1 [⟨"in", "a.txt"⟩] "dest"
      TransferKind.move (fun _ => none) ⟨[(⟨"other", "b.txt"⟩, "data")], []⟩
      (by decide),
   c8_transfer_missing_sources_amended.2 [⟨"other", "b.txt"⟩] "dest"
      TransferKind.move (fun _ => some "PermissionError")
      ⟨[(⟨"other", "b.txt"⟩, "data")], []⟩ (by simp)⟩

/-! ## Decimal rendering of the uniqueness counter

`sanitize_pathname` renders its collision counter with Python `str(int)`:
the usual decimal digits.  The rendering is defined from scratch together
with a round-trip proof, giving the injectivity needed to show that the
candidate names `stem`, `stem_1`, `stem_2`, … are pairwise distinct. -/

/-- Little-endian decimal digits, with structural fuel (`fuel > n` always
holds at the call sites, so the `fuel = 0` base is never reached). -/
def natDigitsAux : Nat → Nat → List Nat
  | 0, _ => []
  | fuel + 1, n => if n < 10 then [n] else n % 10 :: natDigitsAux fuel (n / 10)

/-- Little-endian decimal digits of `n`. -/
def natDigits (n : Nat) : List Nat := natDigitsAux (n + 1) n

/-- The value denoted by a little-endian digit list. -/
def digitsVal : List Nat → Nat
  | [] => 0
  | d :: ds => d + 10 * digitsVal ds

theorem digitsVal_natDigitsAux :
    ∀ (fuel n : Nat), n < fuel → digitsVal (natDigitsAux fuel n) = n
  | 0, _, h => by omega
  | fuel + 1, n, h => by
    rw [natDigitsAux]
    split
    · simp [digitsVal]
    · rename_i h10
      have hlt : n / 10 < fuel := by
        have h1 : n / 10 < n := Nat.div_lt_self (by omega) (by omega)
        omega
      have ih := digitsVal_natDigitsAux fuel (n / 10) hlt
      simp only [digitsVal, ih]
      omega

theorem digitsVal_natDigits (n : Nat) : digitsVal (natDigits n) = n :=
  digitsVal_natDigitsAux (n + 1) n (by omega)

theorem natDigitsAux_lt_ten :
    ∀ (fuel n : Nat), ∀ d ∈ natDigitsAux fuel n, d < 10
  | 0, _ => by simp [natDigitsAux]
  | fuel + 1, n => by
    rw [natDigitsAux]
    split
    · intro d hd
      simp only [List.mem_singleton] at hd
      omega
    · intro d hd
      simp only [List.mem_cons] at hd
      rcases hd with rfl | hd
      · exact Nat.mod_lt n (by omega)
      · exact natDigitsAux_lt_ten fuel (n / 10) d hd

theorem natDigits_lt_ten (n : Nat) : ∀ d ∈ natDigits n, d < 10 :=
  natDigitsAux_lt_ten (n + 1) n

theorem natDigits_injective {m n : Nat} (h : natDigits m = natDigits n) :
    m = n := by
  rw [← digitsVal_natDigits m, ← digitsVal_natDigits n, h]

theorem natDigits_ne_nil (n : Nat) : natDigits n ≠ [] := by
  rw [natDigits, natDigitsAux]
  split <;> simp

/-- The character of one decimal digit (`'0'` + d). -/
def digitChar (d : Nat) : Char := Char.ofNat (48 + d)

theorem digitChar_injOn :
    ∀ d < 10, ∀ e < 10, digitChar d = digitChar e → d = e := by decide

theorem map_digitChar_inj :
    ∀ (xs ys : List Nat), (∀ x ∈ xs, x < 10) → (∀ y ∈ ys, y < 10) →
      xs.map digitChar = ys.map digitChar → xs = ys
  | [], [], _, _, _ => rfl
  | [], _ :: _, _, _, h => by simp at h
  | _ :: _, [], _, _, h => by simp at h
  | x :: xs, y :: ys, hx, hy, h => by
    simp only [List.map_cons, List.cons.injEq] at h
    have hxy := digitChar_injOn x (hx x (by simp)) y (hy y (by simp)) h.1
    have htl := map_digitChar_inj xs ys
      (fun a ha => hx a (by simp [ha])) (fun a ha => hy a (by simp [ha])) h.2
    simp [hxy, htl]

/-- Python `str(n)` as a character list: big-endian decimal digits. -/
def pyNatStr (n : Nat) : List Char := (natDigits n).reverse.map digitChar

theorem pyNatStr_injective {m n : Nat} (h : pyNatStr m = pyNatStr n) :
    m = n := by
  unfold pyNatStr at h
  have h1 : (natDigits m).reverse = (natDigits n).reverse :=
    map_digitChar_inj _ _
      (fun x hx => natDigits_lt_ten m x (List.mem_reverse.mp hx))
      (fun y hy => natDigits_lt_ten n y (List.mem_reverse.mp hy)) h
  exact natDigits_injective (List.reverse_injective h1)

theorem pyNatStr_ne_nil (n : Nat) : pyNatStr n ≠ [] := by
  unfold pyNatStr
  intro h
  exact natDigits_ne_nil n (by simpa using congrArg List.reverse (by simpa using h))

/-! ## The uniqueness loop of `sanitize_pathname` (src/utils.py, lines 223-233)

```python
final_name = f"{stem}{ext}"
counter = 1
while (parent_path / final_name).exists():
    final_name = f"{stem}_{counter}{ext}"
    counter += 1
```

The candidate sequence is `stem+ext`, `stem_1+ext`, `stem_2+ext`, … — all
pairwise distinct; since the parent directory holds finitely many entries,
the loop stops at the first free candidate, which exists among the first
`|existing| + 1` candidates.  The loop is rendered with exactly that much
fuel; `findFreeAux_not_mem` shows the fuel is never exhausted. -/

/-- The `counter`-th candidate name. -/
def candName (stem ext : List Char) : Nat → List Char
  | 0 => stem ++ ext
  | Nat.succ k => stem ++ '_' :: (pyNatStr (k + 1) ++ ext)

theorem candName_injective (stem ext : List Char) :
    Function.Injective (candName stem ext) := by
  intro a b h
  match a, b with
  | 0, 0 => rfl
  | 0, Nat.succ k =>
    exfalso
    have := congrArg List.length h
    simp only [candName, List.length_append, List.length_cons] at this
    have hne := pyNatStr_ne_nil (k + 1)
    have : pyNatStr (k + 1) = [] := by
      cases hlen : (pyNatStr (k + 1)).length with
      | zero => exact List.length_eq_zero.mp hlen
      | succ m => rw [hlen] at this; omega
    exact hne this
  | Nat.succ k, 0 =>
    exfalso
    have := congrArg List.length h
    simp only [candName, List.length_append, List.length_cons] at this
    have hne := pyNatStr_ne_nil (k + 1)
    have : pyNatStr (k + 1) = [] := by
      cases hlen : (pyNatStr (k + 1)).length with
      | zero => exact List.length_eq_zero.mp hlen
      | succ m => rw [hlen] at this; omega
    exact hne this
  | Nat.succ j, Nat.succ k =>
    simp only [candName] at h
    have h1 := List.append_cancel_left h
    simp only [List.cons.injEq, true_and] at h1
    have h2 := List.append_cancel_right h1
    have := pyNatStr_injective h2
    omega

theorem nodup_subset_length_le {α : Type} [DecidableEq α]
    {l₁ l₂ : List α} (h₁ : l₁.Nodup) (hsub : l₁ ⊆ l₂) :
    l₁.length ≤ l₂.length := by
  have h3 : l₁.toFinset ⊆ l₂.toFinset := by
    intro x hx
    simp only [List.mem_toFinset] at hx ⊢
    exact hsub hx
  have h4 := Finset.card_le_card h3
  have h5 := List.toFinset_card_of_nodup h₁
  have h6 := List.toFinset_card_le l₂
  omega

/-- Among the first `|existing| + 1` candidates, one is not taken. -/
theorem exists_fresh_cand (existing : List String) (stem ext : List Char) :
    ∃ j, j ≤ existing.length
      ∧ String.mk (candName stem ext j) ∉ existing := by
  by_contra hcon
  push_neg at hcon
  have hsub : ((List.range (existing.length + 1)).map
      (fun j => String.mk (candName stem ext j))) ⊆ existing := by
    intro x hx
    simp only [List.mem_map, List.mem_range] at hx
    obtain ⟨j, hj, rfl⟩ := hx
    exact hcon j (by omega)
  have hinj : Function.Injective
      (fun j => String.mk (candName stem ext j)) := by
    intro a b hab
    exact candName_injective stem ext (congrArg String.data hab)
  have hnd := (List.nodup_range (existing.length + 1)).map hinj
  have := nodup_subset_length_le hnd hsub
  simp only [List.length_map, List.length_range] at this
  omega

/-- The `while` loop with explicit fuel: try `candName stem ext k`, advance
the counter on a collision. -/
def findFreeAux (existing : List String) (stem ext : List Char) :
    Nat → Nat → String
  | 0, k => String.mk (candName stem ext k)
  | fuel + 1, k =>
      let c := String.mk (candName stem ext k)
      if c ∈ existing then findFreeAux existing stem ext fuel (k + 1) else c

theorem findFreeAux_not_mem (existing : List String) (stem ext : List Char) :
    ∀ (fuel k : Nat),
      (∃ j, j ≤ fuel ∧ String.mk (candName stem ext (k + j)) ∉ existing) →
      findFreeAux existing stem ext fuel k ∉ existing
  | 0, k, ⟨j, hj, hfree⟩ => by
      have hj0 : j = 0 := by omega
      subst hj0
      simpa [findFreeAux] using hfree
  | fuel + 1, k, ⟨j, hj, hfree⟩ => by
      by_cases hc : String.mk (candName stem ext k) ∈ existing
      · have hj0 : j ≠ 0 := by
          rintro rfl
          simp only [Nat.add_zero] at hfree
          exact hfree hc
        obtain ⟨j', rfl⟩ : ∃ j', j = j' + 1 := ⟨j - 1, by omega⟩
        have hshift : String.mk (candName stem ext ((k + 1) + j')) ∉ existing := by
          have harith : k + (j' + 1) = (k + 1) + j' := by omega
          rwa [harith] at hfree
        have ih := findFreeAux_not_mem existing stem ext fuel (k + 1)
          ⟨j', by omega, hshift⟩
        simpa [findFreeAux, hc] using ih
      · simp [findFreeAux, hc]

/-- The loop, run with enough fuel, always returns a name absent from the
parent directory. -/
theorem findFreeAux_full_not_mem (existing : List String)
    (stem ext : List Char) :
    findFreeAux existing stem ext (existing.length + 1) 0 ∉ existing := by
  obtain ⟨j, hj, hfree⟩ := exists_fresh_cand existing stem ext
  exact findFreeAux_not_mem existing stem ext (existing.length + 1) 0
    ⟨j, by omega, by simpa using hfree⟩

/-! ## `sanitize_pathname` (src/utils.py, lines 154-233)

The Python pipeline, for a name that contains no path separators after
cleaning (separators are among the replaced characters):

1. `re.sub(r'[<>:"/\\|?*\x00-\x1F]', " ", name)` — each illegal character
   becomes a space;
2. `re.sub(r"\s+", "_", clean_name.strip())` — strip surrounding
   whitespace, collapse each whitespace run to one underscore;
3. empty result → `ValueError`;
4. files: split `stem` / `suffix` at the last dot (pathlib rule: only when
   the dot is neither the first nor the last character), lower-case the
   suffix; directories: strip leading/trailing dots, no suffix;
5. truncate the stem to `max(1, max_length - len(ext))` (files) or
   `max_length` (directories);
6. Windows reserved device names get a leading underscore;
7. the uniqueness loop (modelled above by `findFreeAux`).
-/

/-- The character class `[<>:"/\\|?*\x00-\x1F]`. -/
def isIllegalChar (c : Char) : Bool :=
  c == '<' || c == '>' || c == ':' || c == '"' || c == '/' || c == '\\'
    || c == '|' || c == '?' || c == '*' || decide (c.toNat < 32)

/-- ASCII lower-casing, for `suffix.lower()`. -/
def toLowerChar (c : Char) : Char :=
  if 'A' ≤ c ∧ c ≤ 'Z' then Char.ofNat (c.toNat + 32) else c

/-- ASCII upper-casing, for the `stem.upper()` reserved-name check. -/
def toUpperChar (c : Char) : Char :=
  if 'a' ≤ c ∧ c ≤ 'z' then Char.ofNat (c.toNat - 32) else c

/-- `re.sub(r"\s+", "_", ...)`, run-by-run: the flag records whether the
previous character was inside a whitespace run (which already emitted its
underscore). -/
def collapseWsAux : Bool → List Char → List Char
  | _, [] => []
  | inRun, c :: cs =>
      if isSpaceChar c then
        if inRun then collapseWsAux true cs
        else '_' :: collapseWsAux true cs
      else c :: collapseWsAux false cs

/-- `re.sub(r"\s+", "_", ...)`: each maximal whitespace run becomes one
underscore. -/
def collapseWs (l : List Char) : List Char := collapseWsAux false l

/-- Steps 1-2 of the pipeline. -/
def cleanChars (s : List Char) : List Char :=
  collapseWs
    (stripEnds isSpaceChar (s.map (fun c => if isIllegalChar c then ' ' else c)))

/-- The index of the last `'.'` (`name.rfind('.')`), if any. -/
def lastDotIdx (s : List Char) : Option Nat :=
  match s.reverse.findIdx? (fun c => c == '.') with
  | none => none
  | some j => some (s.length - 1 - j)

/-- `pathlib`'s `stem` / `suffix` split of a single path component: split at
the last dot when it is neither the first nor the last character. -/
def splitExt (s : List Char) : List Char × List Char :=
  match lastDotIdx s with
  | none => (s, [])
  | some i =>
      if 0 < i ∧ i < s.length - 1 then (s.take i, s.drop i) else (s, [])

theorem splitExt_append (s : List Char) :
    (splitExt s).1 ++ (splitExt s).2 = s := by
  unfold splitExt
  cases lastDotIdx s with
  | none => simp
  | some i =>
    by_cases h : 0 < i ∧ i < s.length - 1
    · simp [h, List.take_append_drop]
    · simp [h]

/-- The Windows reserved device names checked at lines 214-218. -/
def reservedNames : List String :=
  ["CON", "PRN", "AUX", "NUL",
   "COM1", "COM2", "COM3", "COM4", "COM5", "COM6", "COM7", "COM8", "COM9",
   "LPT1", "LPT2", "LPT3", "LPT4", "LPT5", "LPT6", "LPT7", "LPT8", "LPT9"]

/-- Steps 4-6: compute the final `(stem, ext)` before the uniqueness loop. -/
def sanitizeStemExt (cleaned : List Char) (is_file : Bool)
    (max_length : Nat) : List Char × List Char :=
  let st0 := if is_file then (splitExt cleaned).1
    else stripEnds (fun c => c == '.') cleaned
  let ex := if is_file then (splitExt cleaned).2.map toLowerChar else []
  let maxStemLen := if is_file then max 1 (max_length - ex.length)
    else max_length
  let stem1 := st0.take maxStemLen
  let stem2 := if String.mk (stem1.map toUpperChar) ∈ reservedNames
    then '_' :: stem1 else stem1
  (stem2, ex)

/-- Steps 4-7 for a non-empty cleaned name. -/
def sanitizeCore (existing : List String) (cleaned : List Char)
    (is_file : Bool) (max_length : Nat) : String :=
  let se := sanitizeStemExt cleaned is_file max_length
  findFreeAux existing se.1 se.2 (existing.length + 1) 0

/-- `sanitize_pathname(parent_path, name, is_file, max_length)`, with the
parent directory represented by the list `existing` of entry names it
currently contains.  The `ValueError` on an empty cleaned name is the
`Except.error` case. -/
def sanitize_pathname (existing : List String) (name : String)
    (is_file : Bool) (max_length : Nat) : Except String String :=
  let cleaned := cleanChars name.data
  if cleaned.isEmpty then
    .error "После очистки имя не может быть пустым"
  else
    .ok (sanitizeCore existing cleaned is_file max_length)

/-- A map that changes no element is the identity. -/
theorem map_noop (f : Char → Char) (l : List Char)
    (h : ∀ c ∈ l, f c = c) : l.map f = l := by
  induction l with
  | nil => rfl
  | cons c cs ih =>
    simp only [List.map_cons, h c (List.mem_cons_self c cs),
      List.cons.injEq, true_and]
    exact ih (fun x hx => h x (List.mem_cons_of_mem c hx))

theorem dropWhile_noop (p : Char → Bool) (l : List Char)
    (h : ∀ c ∈ l, p c = false) : l.dropWhile p = l := by
  cases l with
  | nil => rfl
  | cons c cs =>
    simp [List.dropWhile_cons, h c (List.mem_cons_self c cs)]

theorem stripEnds_noop (p : Char → Bool) (l : List Char)
    (h : ∀ c ∈ l, p c = false) : stripEnds p l = l := by
  unfold stripEnds dropTrailing
  rw [dropWhile_noop p l h,
    dropWhile_noop p l.reverse (fun c hc => h c (List.mem_reverse.mp hc)),
    List.reverse_reverse]

theorem collapseWs_noop (l : List Char)
    (h : ∀ c ∈ l, isSpaceChar c = false) : collapseWs l = l := by
  unfold collapseWs
  induction l with
  | nil => rfl
  | cons c cs ih =>
    rw [collapseWsAux, if_neg (by simp [h c (List.mem_cons_self c cs)])]
    simp only [List.cons.injEq, true_and]
    exact ih (fun x hx => h x (List.mem_cons_of_mem c hx))

/-- On a name with no illegal and no whitespace characters the
cleaning pipeline is the identity. -/
theorem cleanChars_noop (s : List Char)
    (h1 : ∀ c ∈ s, isIllegalChar c = false)
    (h2 : ∀ c ∈ s, isSpaceChar c = false) : cleanChars s = s := by
  unfold cleanChars
  rw [map_noop _ s (fun c hc => by simp [h1 c hc]),
    stripEnds_noop _ s h2, collapseWs_noop s h2]

/-- "Already clean" for `sanitize_pathname`: non-empty, no illegal and no
whitespace characters, and — for a file — extension already lower-case,
stem within the length limit and not a reserved device name (for a
directory: no surrounding dots, within the limit, not reserved); finally,
no collision with an existing entry of the target directory. -/
def cleanFileOK (name : String) (max_length : Nat) : Bool :=
  decide ((splitExt name.data).2.map toLowerChar = (splitExt name.data).2)
  && decide ((splitExt name.data).1.length
      ≤ max 1 (max_length - (splitExt name.data).2.length))
  && !decide (String.mk ((splitExt name.data).1.map toUpperChar)
      ∈ reservedNames)

def cleanDirOK (name : String) (max_length : Nat) : Bool :=
  decide (stripEnds (fun c => c == '.') name.data = name.data)
  && decide (name.data.length ≤ max_length)
  && !decide (String.mk (name.data.map toUpperChar) ∈ reservedNames)

def cleanNameOK (existing : List String) (name : String) (is_file : Bool)
    (max_length : Nat) : Bool :=
  decide (name.data ≠ [])
  && name.data.all (fun c => !isIllegalChar c)
  && name.data.all (fun c => !isSpaceChar c)
  && (if is_file then cleanFileOK name max_length
      else cleanDirOK name max_length)
  && !decide (name ∈ existing)

theorem sanitizeStemExt_file_clean (cleaned : List Char) (max_length : Nat)
    (hlow : (splitExt cleaned).2.map toLowerChar = (splitExt cleaned).2)
    (hlen : (splitExt cleaned).1.length
      ≤ max 1 (max_length - (splitExt cleaned).2.length))
    (hres : String.mk ((splitExt cleaned).1.map toUpperChar)
      ∉ reservedNames) :
    sanitizeStemExt cleaned true max_length
      = ((splitExt cleaned).1, (splitExt cleaned).2) := by
  simp only [sanitizeStemExt, if_pos, hlow]
  rw [List.take_of_length_le hlen, if_neg hres]

theorem sanitizeStemExt_dir_clean (cleaned : List Char) (max_length : Nat)
    (hstrip : stripEnds (fun c => c == '.') cleaned = cleaned)
    (hlen : cleaned.length ≤ max_length)
    (hres : String.mk (cleaned.map toUpperChar) ∉ reservedNames) :
    sanitizeStemExt cleaned false max_length = (cleaned, []) := by
  simp only [sanitizeStemExt, Bool.false_eq_true, if_false, hstrip]
  rw [List.take_of_length_le hlen, if_neg hres]

theorem findFreeAux_first_free (existing : List String) (stem ext : List Char)
    (h : String.mk (stem ++ ext) ∉ existing) :
    findFreeAux existing stem ext (existing.length + 1) 0
      = String.mk (stem ++ ext) := by
  rw [findFreeAux]
  simp only [candName]
  rw [if_neg h]

theorem sanitizeCore_not_mem (existing : List String) (cleaned : List Char)
    (is_file : Bool) (max_length : Nat) :
    sanitizeCore existing cleaned is_file max_length ∉ existing := by
  simp only [sanitizeCore]
  exact findFreeAux_full_not_mem existing _ _

/-- **C7.** (1) On an already-clean name (per `cleanNameOK`: no illegal
characters, no whitespace, extension already lower-case, within the length
limit, not a reserved device name) that does not collide with any existing
entry of the target directory, `sanitize_pathname` returns exactly that
name.  (2) For every input for which a path is returned at all, the
returned name does not exist in the target directory at the time of the
call. -/
theorem c7_sanitize_idempotent_and_unique :
    (∀ (existing : List String) (name : String) (is_file : Bool)
        (max_length : Nat),
        cleanNameOK existing name is_file max_length = true →
        sanitize_pathname existing name is_file max_length = .ok name)
    ∧ (∀ (existing : List String) (name : String) (is_file : Bool)
        (max_length : Nat) (out : String),
        sanitize_pathname existing name is_file max_length = .ok out →
        out ∉ existing) := by
  constructor
  · intro existing name is_file max_length h
    simp only [cleanNameOK, Bool.and_eq_true, List.all_eq_true,
      decide_eq_true_eq, Bool.not_eq_true', decide_eq_false_iff_not] at h
    obtain ⟨⟨⟨⟨hnil, hill⟩, hspace⟩, hcase⟩, hmem⟩ := h
    have hill' : ∀ c ∈ name.data, isIllegalChar c = false := by
      intro c hc
      have := hill c hc
      simpa using this
    have hspace' : ∀ c ∈ name.data, isSpaceChar c = false := by
      intro c hc
      have := hspace c hc
      simpa using this
    have hclean : cleanChars name.data = name.data :=
      cleanChars_noop name.data hill' hspace'
    have hemp : (cleanChars name.data).isEmpty = false := by
      rw [hclean]
      cases hd : name.data with
      | nil => exact absurd hd hnil
      | cons c cs => rfl
    simp only [sanitize_pathname, hemp, Bool.false_eq_true, if_false,
      Except.ok.injEq]
    rw [hclean]
    cases is_file with
    | true =>
      simp only [if_true] at hcase
      simp only [cleanFileOK, Bool.and_eq_true, decide_eq_true_eq,
        Bool.not_eq_true', decide_eq_false_iff_not] at hcase
      obtain ⟨⟨hlow, hlen⟩, hres⟩ := hcase
      simp only [sanitizeCore,
        sanitizeStemExt_file_clean name.data max_length hlow hlen hres]
      have hx : String.mk ((splitExt name.data).1 ++ (splitExt name.data).2)
          ∉ existing := by
        rw [splitExt_append]
        exact hmem
      rw [findFreeAux_first_free existing _ _ hx, splitExt_append]
    | false =>
      simp only [Bool.false_eq_true, if_false] at hcase
      simp only [cleanDirOK, Bool.and_eq_true, decide_eq_true_eq,
        Bool.not_eq_true', decide_eq_false_iff_not] at hcase
      obtain ⟨⟨hstrip, hlen⟩, hres⟩ := hcase
      simp only [sanitizeCore,
        sanitizeStemExt_dir_clean name.data max_length hstrip hlen hres]
      have hx : String.mk (name.data ++ []) ∉ existing := by
        rw [List.append_nil]
        exact hmem
      rw [findFreeAux_first_free existing _ _ hx, List.append_nil]
  · intro existing name is_file max_length out h
    simp only [sanitize_pathname] at h
    split at h
    · exact Except.noConfusion h
    · injection h with h'
      rw [← h']
      exact sanitizeCore_not_mem existing _ is_file max_length

/-- Witness for C7: `report.pdf` is clean and absent, hence returned
unchanged; over a directory already holding `report.pdf` the returned name
(`report_1.pdf`) does not collide. -/
theorem c7_sanitize_idempotent_and_unique_witness :
    sanitize_pathname [] "report.pdf" true 50 = .ok "report.pdf"
    ∧ "report_1.pdf" ∉ ["report.pdf"] :=
  ⟨c7_sanitize_idempotent_and_unique.1 [] "report.pdf" true 50 (by decide),
   c7_sanitize_idempotent_and_unique.2 ["report.pdf"] "report.pdf" true 50
     "report_1.pdf" (by rfl)⟩

/-! ## Container Matcher (specification §4.2)

The fuzzy Container Matcher (`match(ocrCodes, dbCodes, threshold=0.9)`) is
described by the specification but its implementation is not among the
repository sources — only the set-intersection comparison appears in
`process_output_ocr.py`.  Following the specification it is modelled here:

1. exact pass, removing each exactly-matched DB code from the candidate
   pool (similarity 1.0);
2. fuzzy pass: a normalised edit-distance ratio on a 0-100 scale, keeping
   the top 7 candidates per OCR code above `threshold * 100`;
3. a globally-minimal-cost one-to-one assignment (cost `1 - similarity`)
   over the remaining (OCR × DB) pairs, maximal in cardinality, ties
   resolved by the deterministic enumeration order;
4. assignment pairs below the threshold are rejected (left unmatched).
-/

/-- Modelled from the spec: the ephemeral `ContainerMatch` record
(`ocrCode`, optional `matchedDbCode`, optional `similarity ∈ [0,1]`). -/
structure ContainerMatch where
  ocrCode : String
  matchedDbCode : Option String
  similarity : Option ℚ
  deriving DecidableEq, Repr

/-- Modelled from the spec: the normalised edit-distance-based similarity
score on a 0-100 scale. -/
def simRatio (a b : String) : ℚ :=
  let n : ℚ := max a.data.length b.data.length
  let d : ℕ := levenshtein Levenshtein.defaultCost a.data b.data
  if n = 0 then 100 else 100 * (1 - (d : ℚ) / n)

/-- Modelled from the spec: the exact pass — each OCR code equal to a still
available DB code is matched immediately and the DB code leaves the pool.
Returns the per-OCR-entry outcome (in OCR order) and the remaining pool. -/
def exactPass : List String → List String →
    List (String × Option String) × List String
  | [], pool => ([], pool)
  | o :: os, pool =>
      if o ∈ pool then
        let r := exactPass os (pool.erase o)
        ((o, some o) :: r.1, r.2)
      else
        let r := exactPass os pool
        ((o, none) :: r.1, r.2)

/-- Insertion into a similarity-descending list. -/
def insertDescBySim (x : String × ℚ) :
    List (String × ℚ) → List (String × ℚ)
  | [] => [x]
  | y :: ys => if y.2 ≤ x.2 then x :: y :: ys else y :: insertDescBySim x ys

/-- Modelled from the spec: the top-7 fuzzy candidates for one OCR code
above `threshold * 100`, drawn from the remaining pool. -/
def topCandidates (threshold : ℚ) (pool : List String) (o : String) :
    List (String × ℚ) :=
  (((pool.map (fun d => (d, simRatio o d))).filter
      (fun p => 100 * threshold ≤ p.2)).foldr insertDescBySim []).take 7

/-- Modelled from the spec: every one-to-one partial assignment of the
remaining OCR codes (in order) to still-available candidate DB codes; each
OCR slot holds the chosen `(dbCode, similarity)` or `none`. -/
def assignments (cand : String → List (String × ℚ)) :
    List String → List String → List (List (Option (String × ℚ)))
  | [], _ => [[]]
  | o :: os, avail =>
      (((cand o).filter (fun d => d.1 ∈ avail)).map
          (fun d => (assignments cand os (avail.erase d.1)).map
            (fun r => some d :: r))).flatten
      ++ (assignments cand os avail).map (fun r => none :: r)

/-- Number of matched slots of an assignment. -/
def asgCard (a : List (Option (String × ℚ))) : Nat :=
  (a.filterMap id).length

/-- Total cost `Σ (1 - similarity/100)` of an assignment. -/
def asgCost (a : List (Option (String × ℚ))) : ℚ :=
  ((a.filterMap id).map (fun d => 1 - d.2 / 100)).sum

/-- LAP preference: more matched pairs first, then lower cost. -/
def asgBetter (x y : List (Option (String × ℚ))) : Bool :=
  decide (asgCard y < asgCard x)
    || (asgCard x == asgCard y && decide (asgCost x < asgCost y))

/-- Modelled from the spec: the assignment-problem solver — the best
assignment of the enumeration under `asgBetter`, ties resolved by
enumeration order. -/
def chooseBest : List (List (Option (String × ℚ))) →
    List (Option (String × ℚ))
  | [] => []
  | x :: xs => xs.foldl (fun b y => if asgBetter y b then y else b) x

/-- Modelled from the spec: step 4 — an assigned pair is accepted only if
its similarity still meets the threshold. -/
def acceptThreshold (threshold : ℚ) :
    Option (String × ℚ) → Option (String × ℚ)
  | some d => if 100 * threshold ≤ d.2 then some d else none
  | none => none

/-- Merge the exact-pass outcomes (in OCR order) with the fuzzy-assignment
slots (one per exact-pass `none` entry, in order). -/
def assembleMatches :
    List (String × Option String) → List (Option (String × ℚ)) →
      List ContainerMatch
  | [], _ => []
  | (o, some d) :: rest, fz =>
      ⟨o, some d, some 1⟩ :: assembleMatches rest fz
  | (o, none) :: rest, a :: fz =>
      (match a with
       | some d => ⟨o, some d.1, some (d.2 / 100)⟩
       | none => ⟨o, none, none⟩) :: assembleMatches rest fz
  | (o, none) :: rest, [] => ⟨o, none, none⟩ :: assembleMatches rest []

/-- Modelled from the spec: `match(ocrCodes, dbCodes, threshold)` — exact
pass, fuzzy candidate pruning, one-to-one assignment, threshold
acceptance; the result is aligned 1:1 with `ocrCodes`. -/
def containerMatcher (ocrCodes dbCodes : List String) (threshold : ℚ) :
    List ContainerMatch :=
  let ep := exactPass ocrCodes dbCodes
  let freeOcr := ep.1.filterMap
    (fun p => if p.2.isNone then some p.1 else none)
  let asg := chooseBest
    (assignments (topCandidates threshold ep.2) freeOcr ep.2)
  assembleMatches ep.1 (asg.map (acceptThreshold threshold))

/-- The DB codes claimed by the exact pass, in order. -/
def exVals (ex : List (String × Option String)) : List String :=
  ex.filterMap Prod.snd

/-- The DB codes claimed by a fuzzy assignment, in order. -/
def asgVals (fz : List (Option (String × ℚ))) : List String :=
  (fz.filterMap id).map Prod.fst

/-- The DB codes matched in a result list, in order. -/
def matchedVals (ms : List ContainerMatch) : List String :=
  ms.filterMap ContainerMatch.matchedDbCode

theorem exactPass_map_fst (os : List String) :
    ∀ pool, (exactPass os pool).1.map Prod.fst = os := by
  induction os with
  | nil => intro pool; rfl
  | cons o os ih =>
    intro pool
    by_cases h : o ∈ pool <;> simp [exactPass, h, ih]

theorem exactPass_pool_subset (os : List String) :
    ∀ pool, (exactPass os pool).2 ⊆ pool := by
  induction os with
  | nil => intro pool; simp [exactPass]
  | cons o os ih =>
    intro pool
    by_cases h : o ∈ pool
    · simp only [exactPass, if_pos h]
      exact (ih (pool.erase o)).trans (List.erase_subset o pool)
    · simp only [exactPass, if_neg h]
      exact ih pool

theorem exactPass_pool_nodup (os : List String) :
    ∀ pool, pool.Nodup → (exactPass os pool).2.Nodup := by
  induction os with
  | nil => intro pool h; simpa [exactPass] using h
  | cons o os ih =>
    intro pool h
    by_cases hm : o ∈ pool
    · simp only [exactPass, if_pos hm]
      exact ih _ (h.erase o)
    · simp only [exactPass, if_neg hm]
      exact ih _ h

theorem exactPass_vals (os : List String) :
    ∀ pool, pool.Nodup →
      (exVals (exactPass os pool).1).Nodup
      ∧ ∀ v ∈ exVals (exactPass os pool).1,
          v ∈ pool ∧ v ∉ (exactPass os pool).2 := by
  induction os with
  | nil => intro pool _; simp [exactPass, exVals]
  | cons o os ih =>
    intro pool h
    by_cases hm : o ∈ pool
    · simp only [exactPass, if_pos hm]
      obtain ⟨ihN, ihM⟩ := ih (pool.erase o) (h.erase o)
      have hval : exVals ((o, some o) :: (exactPass os (pool.erase o)).1)
          = o :: exVals (exactPass os (pool.erase o)).1 := rfl
      rw [hval]
      constructor
      · rw [List.nodup_cons]
        exact ⟨fun hmem => h.not_mem_erase (ihM o hmem).1, ihN⟩
      · intro v hv
        rcases List.mem_cons.mp hv with rfl | hv
        · exact ⟨hm, fun hc =>
            h.not_mem_erase (exactPass_pool_subset os (pool.erase v) hc)⟩
        · exact ⟨List.erase_subset o pool (ihM v hv).1, (ihM v hv).2⟩
    · simp only [exactPass, if_neg hm]
      obtain ⟨ihN, ihM⟩ := ih pool h
      have hval : exVals ((o, none) :: (exactPass os pool).1)
          = exVals (exactPass os pool).1 := rfl
      rw [hval]
      exact ⟨ihN, ihM⟩

theorem assignments_vals (cand : String → List (String × ℚ))
    (os : List String) :
    ∀ (avail : List String), avail.Nodup →
      ∀ a ∈ assignments cand os avail,
        (asgVals a).Nodup ∧ ∀ v ∈ asgVals a, v ∈ avail := by
  induction os with
  | nil =>
    intro avail _ a ha
    simp only [assignments, List.mem_singleton] at ha
    subst ha
    simp [asgVals]
  | cons o os ih =>
    intro avail hav a ha
    simp only [assignments, List.mem_append, List.mem_flatten,
      List.mem_map] at ha
    rcases ha with ⟨l, ⟨d, hd, rfl⟩, ha⟩ | ⟨r, hr, rfl⟩
    · simp only [List.mem_map] at ha
      obtain ⟨r, hr, rfl⟩ := ha
      have hdav : d.1 ∈ avail := by
        simp only [List.mem_filter, decide_eq_true_eq] at hd
        exact hd.2
      obtain ⟨ihN, ihM⟩ := ih (avail.erase d.1) (hav.erase d.1) r hr
      have hvals : asgVals (some d :: r) = d.1 :: asgVals r := rfl
      rw [hvals]
      constructor
      · rw [List.nodup_cons]
        exact ⟨fun hmem => hav.not_mem_erase (ihM d.1 hmem), ihN⟩
      · intro v hv
        rcases List.mem_cons.mp hv with rfl | hv
        · exact hdav
        · exact List.erase_subset d.1 avail (ihM v hv)
    · obtain ⟨ihN, ihM⟩ := ih avail hav r hr
      have hvals : asgVals (none :: r) = asgVals r := rfl
      rw [hvals]
      exact ⟨ihN, ihM⟩

theorem assignments_ne_nil (cand : String → List (String × ℚ))
    (os : List String) : ∀ avail, assignments cand os avail ≠ [] := by
  induction os with
  | nil => intro avail; simp [assignments]
  | cons o os ih =>
    intro avail h
    rw [assignments] at h
    rcases List.append_eq_nil.mp h with ⟨_, h2⟩
    exact ih avail (List.map_eq_nil_iff.mp h2)

theorem foldl_best_mem (xs : List (List (Option (String × ℚ)))) :
    ∀ b, xs.foldl (fun b y => if asgBetter y b then y else b) b ∈ b :: xs := by
  induction xs with
  | nil => intro b; simp
  | cons x xs ih =>
    intro b
    simp only [List.foldl_cons]
    by_cases h : asgBetter x b
    · rw [if_pos h]
      exact List.mem_cons_of_mem b (ih x)
    · rw [if_neg h]
      rcases List.mem_cons.mp (ih b) with h2 | h2
      · rw [h2]
        exact List.mem_cons_self b (x :: xs)
      · exact List.mem_cons_of_mem b (List.mem_cons_of_mem x h2)

theorem chooseBest_mem (l : List (List (Option (String × ℚ))))
    (h : l ≠ []) : chooseBest l ∈ l := by
  cases l with
  | nil => exact absurd rfl h
  | cons x xs =>
    show xs.foldl (fun b y => if asgBetter y b then y else b) x ∈ x :: xs
    exact foldl_best_mem xs x

theorem asgVals_accept_sublist (threshold : ℚ)
    (a : List (Option (String × ℚ))) :
    List.Sublist (asgVals (a.map (acceptThreshold threshold))) (asgVals a) := by
  induction a with
  | nil => simp [asgVals]
  | cons x a ih =>
    cases x with
    | none => exact ih
    | some d =>
      simp only [List.map_cons, acceptThreshold]
      by_cases h : 100 * threshold ≤ d.2
      · rw [if_pos h]
        exact ih.cons₂ d.1
      · rw [if_neg h]
        exact ih.cons d.1

theorem assembleMatches_map_ocr :
    ∀ (ex : List (String × Option String)) (fz : List (Option (String × ℚ))),
      (assembleMatches ex fz).map ContainerMatch.ocrCode = ex.map Prod.fst
  | [], _ => rfl
  | (o, some d) :: rest, fz => by
      simp only [assembleMatches, List.map_cons]
      rw [assembleMatches_map_ocr rest fz]
  | (o, none) :: rest, a :: fz => by
      cases a with
      | none =>
        simp only [assembleMatches, List.map_cons]
        rw [assembleMatches_map_ocr rest fz]
      | some d =>
        simp only [assembleMatches, List.map_cons]
        rw [assembleMatches_map_ocr rest fz]
  | (o, none) :: rest, [] => by
      simp only [assembleMatches, List.map_cons]
      rw [assembleMatches_map_ocr rest []]

theorem assembleMatches_vals_subset :
    ∀ (ex : List (String × Option String)) (fz : List (Option (String × ℚ))),
      ∀ v ∈ matchedVals (assembleMatches ex fz),
        v ∈ exVals ex ∨ v ∈ asgVals fz
  | [], _, v, hv => by simp [assembleMatches, matchedVals] at hv
  | (o, some d) :: rest, fz, v, hv => by
      have hval : matchedVals (assembleMatches ((o, some d) :: rest) fz)
          = d :: matchedVals (assembleMatches rest fz) := rfl
      rw [hval] at hv
      rcases List.mem_cons.mp hv with rfl | hv
      · exact Or.inl (List.mem_cons_self _ _)
      · rcases assembleMatches_vals_subset rest fz v hv with h | h
        · exact Or.inl (List.mem_cons_of_mem d h)
        · exact Or.inr h
  | (o, none) :: rest, some d :: fz, v, hv => by
      have hval : matchedVals (assembleMatches ((o, none) :: rest)
            (some d :: fz))
          = d.1 :: matchedVals (assembleMatches rest fz) := rfl
      rw [hval] at hv
      have hex : exVals ((o, none) :: rest) = exVals rest := rfl
      rw [hex]
      rcases List.mem_cons.mp hv with rfl | hv
      · exact Or.inr (List.mem_cons_self _ _)
      · rcases assembleMatches_vals_subset rest fz v hv with h | h
        · exact Or.inl h
        · exact Or.inr (List.mem_cons_of_mem d.1 h)
  | (o, none) :: rest, none :: fz, v, hv => by
      have hval : matchedVals (assembleMatches ((o, none) :: rest)
            (none :: fz))
          = matchedVals (assembleMatches rest fz) := rfl
      rw [hval] at hv
      have hex : exVals ((o, none) :: rest) = exVals rest := rfl
      have hfz : asgVals (none :: fz) = asgVals fz := rfl
      rw [hex, hfz]
      exact assembleMatches_vals_subset rest fz v hv
  | (o, none) :: rest, [], v, hv => by
      have hval : matchedVals (assembleMatches ((o, none) :: rest) [])
          = matchedVals (assembleMatches rest []) := rfl
      rw [hval] at hv
      have hex : exVals ((o, none) :: rest) = exVals rest := rfl
      rw [hex]
      exact assembleMatches_vals_subset rest [] v hv

theorem assembleMatches_vals_nodup :
    ∀ (ex : List (String × Option String)) (fz : List (Option (String × ℚ))),
      (exVals ex).Nodup → (asgVals fz).Nodup →
      (∀ v ∈ exVals ex, v ∉ asgVals fz) →
      (matchedVals (assembleMatches ex fz)).Nodup
  | [], _, _, _, _ => List.nodup_nil
  | (o, some d) :: rest, fz, hex, hfz, hdisj => by
      have hval : matchedVals (assembleMatches ((o, some d) :: rest) fz)
          = d :: matchedVals (assembleMatches rest fz) := rfl
      have hexv : exVals ((o, some d) :: rest) = d :: exVals rest := rfl
      rw [hexv, List.nodup_cons] at hex
      rw [hval, List.nodup_cons]
      constructor
      · intro hc
        rcases assembleMatches_vals_subset rest fz d hc with h | h
        · exact hex.1 h
        · exact hdisj d (List.mem_cons_self d (exVals rest)) h
      · exact assembleMatches_vals_nodup rest fz hex.2 hfz
          (fun v hv => hdisj v (List.mem_cons_of_mem d hv))
  | (o, none) :: rest, some d :: fz, hex, hfz, hdisj => by
      have hval : matchedVals (assembleMatches ((o, none) :: rest)
            (some d :: fz))
          = d.1 :: matchedVals (assembleMatches rest fz) := rfl
      have hexv : exVals ((o, none) :: rest) = exVals rest := rfl
      have hfzv : asgVals (some d :: fz) = d.1 :: asgVals fz := rfl
      rw [hexv] at hex hdisj
      rw [hfzv, List.nodup_cons] at hfz
      rw [hval, List.nodup_cons]
      constructor
      · intro hc
        rcases assembleMatches_vals_subset rest fz d.1 hc with h | h
        · exact hdisj d.1 h (List.mem_cons_self d.1 (asgVals fz))
        · exact hfz.1 h
      · exact assembleMatches_vals_nodup rest fz hex hfz.2
          (fun v hv hc => hdisj v hv (List.mem_cons_of_mem d.1 hc))
  | (o, none) :: rest, none :: fz, hex, hfz, hdisj => by
      have hval : matchedVals (assembleMatches ((o, none) :: rest)
            (none :: fz))
          = matchedVals (assembleMatches rest fz) := rfl
      have hexv : exVals ((o, none) :: rest) = exVals rest := rfl
      have hfzv : asgVals (none :: fz) = asgVals fz := rfl
      rw [hexv] at hex hdisj
      rw [hfzv] at hfz hdisj
      rw [hval]
      exact assembleMatches_vals_nodup rest fz hex hfz hdisj
  | (o, none) :: rest, [], hex, hfz, hdisj => by
      have hval : matchedVals (assembleMatches ((o, none) :: rest) [])
          = matchedVals (assembleMatches rest []) := rfl
      have hexv : exVals ((o, none) :: rest) = exVals rest := rfl
      rw [hexv] at hex hdisj
      rw [hval]
      exact assembleMatches_vals_nodup rest [] hex hfz hdisj

/-- **C2.** The Container Matcher (modelled from the spec, §4.2) returns a
result list aligned 1:1 with the OCR input — same length, same order of
`ocrCode`s — and never assigns the same DB code to two different result
entries (the matched codes are pairwise distinct), for every OCR list and
every (duplicate-free, i.e. set-valued) DB code list. -/
theorem c2_match_alignment_and_uniqueness (ocrCodes dbCodes : List String)
    (threshold : ℚ) (hdb : dbCodes.Nodup) :
    (containerMatcher ocrCodes dbCodes threshold).map ContainerMatch.ocrCode
      = ocrCodes
    ∧ (matchedVals (containerMatcher ocrCodes dbCodes threshold)).Nodup := by
  constructor
  · simp only [containerMatcher]
    rw [assembleMatches_map_ocr, exactPass_map_fst]
  · simp only [containerMatcher]
    have hpoolN : (exactPass ocrCodes dbCodes).2.Nodup :=
      exactPass_pool_nodup ocrCodes dbCodes hdb
    obtain ⟨hexN, hexM⟩ := exactPass_vals ocrCodes dbCodes hdb
    have hne := assignments_ne_nil
      (topCandidates threshold (exactPass ocrCodes dbCodes).2)
      ((exactPass ocrCodes dbCodes).1.filterMap
        (fun p => if p.2.isNone then some p.1 else none))
      (exactPass ocrCodes dbCodes).2
    have hmem := chooseBest_mem _ hne
    obtain ⟨hasgN, hasgM⟩ := assignments_vals
      (topCandidates threshold (exactPass ocrCodes dbCodes).2)
      ((exactPass ocrCodes dbCodes).1.filterMap
        (fun p => if p.2.isNone then some p.1 else none))
      (exactPass ocrCodes dbCodes).2 hpoolN _ hmem
    have hsub := asgVals_accept_sublist threshold
      (chooseBest (assignments
        (topCandidates threshold (exactPass ocrCodes dbCodes).2)
        ((exactPass ocrCodes dbCodes).1.filterMap
          (fun p => if p.2.isNone then some p.1 else none))
        (exactPass ocrCodes dbCodes).2))
    apply assembleMatches_vals_nodup
    · exact hexN
    · exact hasgN.sublist hsub
    · intro v hv hc
      exact (hexM v hv).2 (hasgM v (hsub.subset hc))

/-- Witness for C2 on a concrete pair of code lists (one exact match, one
OCR misread of `XXXU0000000`). -/
theorem c2_match_alignment_and_uniqueness_witness :
    (containerMatcher ["ABCU1234567", "XXXU0000001"]
        ["ABCU1234567", "XXXU0000000"] (9 / 10)).map ContainerMatch.ocrCode
      = ["ABCU1234567", "XXXU0000001"]
    ∧ (matchedVals (containerMatcher ["ABCU1234567", "XXXU0000001"]
        ["ABCU1234567", "XXXU0000000"] (9 / 10))).Nodup :=
  c2_match_alignment_and_uniqueness ["ABCU1234567", "XXXU0000001"]
    ["ABCU1234567", "XXXU0000000"] (9 / 10) (by decide)

end ConosSeals
